import Mathlib

/-!
Verification of the `esp_disp_driver` hardware VGA driver.

Shallow embedding conventions:
* Machine integers (`u8`, `u16`, `u32`, `usize`) are `Nat`; where a Rust
  shift can exceed the operand width we apply the release-build masking
  (`s % width`) explicitly.
* GPIO pin banks are modelled as functions `Nat → Bool` (pin index to
  logic level); operations only touch indices below the bus width `N`,
  mirroring the `[_; N]` arrays of the source.
* A Rust `panic!`/failed `assert!`/out-of-bounds index is `Option.none`.
-/

namespace EspDisp

/-! ## `par_data_rw.rs`: parallel bus reader / writer -/

/-- The Rust expression `((value >> s) & 0x01) != 0` on a `w`-bit unsigned
integer, with the release-build masking of the shift amount (`s % w`). -/
def rsBit (w v s : Nat) : Bool := decide ((v >>> (s % w)) &&& 1 ≠ 0)

/-- The accumulation loop shared by `ParDataReader::read_u{8,16,32}`:
`value |= 1 << i` for each high pin `i` below `n`, starting from `0`.
Also reused below as the mathematical decoder for parallel outputs. -/
def busVal (pins : Nat → Bool) (n : Nat) : Nat :=
  (List.range n).foldl (fun value i => if pins i then value ||| (1 <<< i) else value) 0

/-- `ParDataReader::read_u8`: asserts `N <= 8`, then reads pins 0..N-1,
pin `i` becoming bit `i` (LSB = pin 0). -/
def readU8 (N : Nat) (pins : Nat → Bool) : Option Nat :=
  if N ≤ 8 then some (busVal pins N) else none

/-- `ParDataReader::read_u16`: asserts `N <= 16`. -/
def readU16 (N : Nat) (pins : Nat → Bool) : Option Nat :=
  if N ≤ 16 then some (busVal pins N) else none

/-- `ParDataReader::read_u32`: no assert; the loop runs `while i < N && i < 32`,
so pins at positions ≥ 32 are silently ignored. -/
def readU32 (N : Nat) (pins : Nat → Bool) : Option Nat :=
  some (busVal pins (min N 32))

/-- `ParDataWriter::set_bit`: returns unchanged if `idx >= N`, else drives
pin `idx` to `b`. -/
def setBitW (N : Nat) (pins : Nat → Bool) (idx : Nat) (b : Bool) : Nat → Bool :=
  if N ≤ idx then pins else fun k => if k = idx then b else pins k

/-- `ParDataWriter::write_u8`: **no** width assert (its doc comment claims
`Panics if N > 8` but the body has none, unlike `read_u8`); drives every
pin `i < N` with `((value >> i) & 1) != 0` on the `u8` value, the shift
being masked mod 8 in a release build once `i ≥ 8`. -/
def writeU8 (N v : Nat) (pins : Nat → Bool) : Nat → Bool :=
  (List.range N).foldl (fun p i => setBitW N p i (rsBit 8 v i)) pins

/-- `ParDataWriter::write_u16`: same structure on a `u16` value. -/
def writeU16 (N v : Nat) (pins : Nat → Bool) : Nat → Bool :=
  (List.range N).foldl (fun p i => setBitW N p i (rsBit 16 v i)) pins

/-- `ParDataWriter::write_u32`: loop runs `while i < N && i < 32`; bit
positions ≥ 32 are silently ignored (their pins keep their old level). -/
def writeU32 (N v : Nat) (pins : Nat → Bool) : Nat → Bool :=
  (List.range (min N 32)).foldl (fun p i => setBitW N p i (rsBit 32 v i)) pins

/-! ### Bit-level lemmas -/

theorem rsBit_eq_testBit {w v s : Nat} (h : s < w) : rsBit w v s = v.testBit s := by
  unfold rsBit
  rw [Nat.mod_eq_of_lt h, Nat.testBit_to_div_mod, Nat.shiftRight_eq_div_pow,
    Nat.and_one_is_mod]
  rcases Nat.mod_two_eq_zero_or_one (v / 2 ^ s) with h2 | h2 <;> simp [h2]

theorem busVal_eq_of_testBit {g : Nat → Bool} {v n : Nat}
    (hg : ∀ i, i < n → g i = v.testBit i) (hv : v < 2 ^ n) : busVal g n = v := by
  have key : ∀ m, m ≤ n →
      (List.range m).foldl (fun value i => if g i then value ||| (1 <<< i) else value) 0
        = v % 2 ^ m := by
    intro m
    induction m with
    | zero => intro _; simp [Nat.mod_one]
    | succ k ih =>
      intro hk
      rw [List.range_succ, List.foldl_append]
      simp only [List.foldl_cons, List.foldl_nil]
      rw [ih (Nat.le_of_succ_le hk)]
      rw [hg k (Nat.lt_of_succ_le hk)]
      by_cases hbit : v.testBit k = true
      · rw [if_pos hbit]
        apply Nat.eq_of_testBit_eq
        intro j
        rw [Nat.testBit_lor, Nat.one_shiftLeft, Nat.testBit_two_pow,
          Nat.testBit_mod_two_pow, Nat.testBit_mod_two_pow]
        rcases Nat.lt_trichotomy j k with hj | hj | hj
        · simp [Nat.lt_succ_of_lt hj, hj, Nat.lt_irrefl, Nat.ne_of_lt' hj]
        · subst hj; simp [Nat.lt_succ_self, hbit, Nat.lt_irrefl]
        · have h1 : ¬ j < k := Nat.lt_asymm hj
          have h2 : ¬ j < k + 1 := by omega
          simp [h1, h2, Nat.ne_of_lt hj]
      · rw [if_neg hbit]
        apply Nat.eq_of_testBit_eq
        intro j
        rw [Nat.testBit_mod_two_pow, Nat.testBit_mod_two_pow]
        rcases Nat.lt_trichotomy j k with hj | hj | hj
        · simp [Nat.lt_succ_of_lt hj, hj]
        · subst hj
          have hb : v.testBit j = false := Bool.eq_false_iff.mpr hbit
          simp [Nat.lt_succ_self, Nat.lt_irrefl, hb]
        · have h1 : ¬ j < k := Nat.lt_asymm hj
          have h2 : ¬ j < k + 1 := by omega
          simp [h1, h2]
  calc busVal g n = v % 2 ^ n := key n (Nat.le_refl n)
    _ = v := Nat.mod_eq_of_lt hv

/-- After the `set_bit` loop over `i < n` (with `n ≤ N`), pin `idx` holds
`f idx` when `idx < n` and its old level otherwise. -/
theorem writeLoop_apply (N n : Nat) (f : Nat → Bool) (pins : Nat → Bool)
    (hn : n ≤ N) (idx : Nat) :
    ((List.range n).foldl (fun p i => setBitW N p i (f i)) pins) idx
      = if idx < n then f idx else pins idx := by
  induction n with
  | zero => simp
  | succ k ih =>
    rw [List.range_succ, List.foldl_append]
    have hk : k ≤ N := Nat.le_of_succ_le hn
    have hkN : ¬ N ≤ k := Nat.not_le_of_lt (Nat.lt_of_lt_of_le (Nat.lt_succ_self k) hn)
    simp only [List.foldl_cons, List.foldl_nil]
    by_cases hidx : idx = k
    · subst hidx
      simp [setBitW, hkN]
    · have hout : setBitW N ((List.range k).foldl (fun p i => setBitW N p i (f i)) pins)
          k (f k) idx
          = ((List.range k).foldl (fun p i => setBitW N p i (f i)) pins) idx := by
        simp [setBitW, hkN, hidx]
      rw [hout, ih hk]
      by_cases h1 : idx < k
      · simp [h1, Nat.lt_succ_of_lt h1]
      · have h2 : ¬ idx < k + 1 := by omega
        simp [h1, h2]

theorem writeU8_apply (N v : Nat) (pins : Nat → Bool) (idx : Nat) :
    writeU8 N v pins idx = if idx < N then rsBit 8 v idx else pins idx :=
  writeLoop_apply N N _ pins (Nat.le_refl N) idx

theorem writeU16_apply (N v : Nat) (pins : Nat → Bool) (idx : Nat) :
    writeU16 N v pins idx = if idx < N then rsBit 16 v idx else pins idx :=
  writeLoop_apply N N _ pins (Nat.le_refl N) idx

/-! ## `sipo.rs`: shift-register protocol family

The bit-banged protocol is modelled as a trace of pin-level events
interpreted over the state of the register chains.  A `tick` on the shared
SRCLK shifts **every** chain by one stage simultaneously; `latchPulse`
copies every chain's stages to its parallel outputs at once. -/

inductive SipoEv where
  | setSer (lane : Nat) (b : Bool)
  | tick
  | latchPulse
  | clearPulse
  | warnNoLatch
  | warnNoClear
deriving DecidableEq, Repr

/-- State of a bank of SIPO lanes.  `sers lane` is the level currently
driven on that lane's SER pin; `chains lane` is the serial register of the
daisy chain (index 0 = the stage next to the serial input, i.e. QA of the
chip nearest the MCU; the last index = QH of the farthest chip);
`outs lane` is the latched parallel output register. -/
structure BankSt where
  sers : Nat → Bool
  chains : Nat → List Bool
  outs : Nat → List Bool

/-- One SRCLK tick on a single daisy chain: every stage takes the value of
its predecessor and stage 0 captures the SER level; the last stage's old
value falls off the far end. -/
def tickChain (b : Bool) (c : List Bool) : List Bool := b :: c.dropLast

def applyEv (st : BankSt) (e : SipoEv) : BankSt :=
  match e with
  | .setSer l b => { st with sers := fun j => if j = l then b else st.sers j }
  | .tick => { st with chains := fun j => tickChain (st.sers j) (st.chains j) }
  | .latchPulse => { st with outs := st.chains }
  | .clearPulse => { st with chains := fun j => List.replicate (st.chains j).length false }
  | .warnNoLatch => st
  | .warnNoClear => st

/-- `ControlGroup`: a mandatory shift clock with optional latch (RCLK) and
clear (SRCLR) lines; only presence matters to the protocol semantics. -/
structure ControlGroup where
  latch : Option Unit
  clear : Option Unit

/-- `ControlGroup::latch_all`: pulse the latch if configured, otherwise emit
a diagnostic warning and do nothing. -/
def latchAll (g : ControlGroup) : List SipoEv :=
  match g.latch with
  | some _ => [SipoEv.latchPulse]
  | none => [SipoEv.warnNoLatch]

/-- `ControlGroup::clear_all`: pulse the clear line if configured, otherwise
emit a diagnostic warning and do nothing. -/
def clearAll (g : ControlGroup) : List SipoEv :=
  match g.clear with
  | some _ => [SipoEv.clearPulse]
  | none => [SipoEv.warnNoClear]

/-- The serial bit `ParallelBank::shift_exact` sends on lane `l` at bit
position `bitIdx`: `(frames[l][bitIdx / 8] >> (7 - bitIdx % 8)) & 1 != 0`. -/
def laneBit (frames : List (List Nat)) (l bitIdx : Nat) : Bool :=
  rsBit 8 ((frames.getD l []).getD (bitIdx / 8) 0) (7 - bitIdx % 8)

/-- `ParallelBank::shift_exact`: for each bit position `0 .. 8*N-1`, drive
bit `bitIdx` of every lane, then issue one shared SRCLK tick. -/
def bankShiftTrace (LANES N : Nat) (frames : List (List Nat)) : List SipoEv :=
  (List.range (8 * N)).flatMap (fun bitIdx =>
    ((List.range LANES).map (fun laneIdx => SipoEv.setSer laneIdx (laneBit frames laneIdx bitIdx)))
      ++ [SipoEv.tick])

/-- `ParallelBank::write_exact`: shift the full frames, then one shared latch. -/
def bankWriteTrace (LANES N : Nat) (g : ControlGroup) (frames : List (List Nat)) :
    List SipoEv :=
  bankShiftTrace LANES N frames ++ latchAll g

/-- `SipoSingle::shift_exact`: the single-lane loop (lane 0). -/
def singleShiftTrace (N : Nat) (frame : List Nat) : List SipoEv :=
  (List.range (8 * N)).flatMap (fun bit =>
    [SipoEv.setSer 0 (rsBit 8 (frame.getD (bit / 8) 0) (7 - bit % 8)), SipoEv.tick])

/-- `SipoSingle::write_exact`: shift the frame, then latch once. -/
def singleWriteTrace (N : Nat) (g : ControlGroup) (frame : List Nat) : List SipoEv :=
  singleShiftTrace N frame ++ latchAll g

/-- Decoder: the byte shown on the parallel outputs of chip `k` of a chain
(chip 0 = nearest the MCU), reading stage `8*k + t` as bit `t`. -/
def chipByte (c : List Bool) (k : Nat) : Nat :=
  busVal (fun t => c.getD (8 * k + t) false) 8

/-! ### Chain semantics lemmas -/

/-- Shifting a list of bits (in order) into a chain at least as long leaves
the chain holding those bits newest-first, followed by the survivors of the
old contents. -/
theorem foldl_tickChain (bits : List Bool) :
    ∀ c : List Bool, bits.length ≤ c.length →
      bits.foldl (fun ch b => tickChain b ch) c
        = bits.reverse ++ c.take (c.length - bits.length) := by
  induction bits with
  | nil => intro c _; simp
  | cons b bs ih =>
    intro c hlen
    have hc : c.length ≥ 1 := by simp at hlen; omega
    rw [List.foldl_cons]
    have hlen2 : bs.length ≤ (tickChain b c).length := by
      simp [tickChain, List.length_dropLast]
      simp at hlen
      omega
    rw [ih (tickChain b c) hlen2]
    have htc : (tickChain b c).length = c.length := by
      simp [tickChain, List.length_dropLast]; omega
    rw [htc]
    have hm : c.length - bs.length = (c.length - (b :: bs).length) + 1 := by
      simp at hlen ⊢; omega
    rw [hm]
    simp only [tickChain, List.take_succ_cons, List.reverse_cons]
    rw [List.dropLast_eq_take, List.take_take]
    have hmin : min (c.length - (b :: bs).length) (c.length - 1) =
        c.length - (b :: bs).length := by
      simp; omega
    rw [hmin, List.append_assoc]
    simp

/-- Folding the interpreter over a `flatMap` trace processes each block in
sequence. -/
theorem foldl_applyEv_flatMap (f : Nat → List SipoEv) (l : List Nat) :
    ∀ st : BankSt, (l.flatMap f).foldl applyEv st
      = l.foldl (fun s a => (f a).foldl applyEv s) st := by
  induction l with
  | nil => intro st; simp
  | cons a as ih =>
    intro st
    rw [List.flatMap_cons, List.foldl_append, List.foldl_cons, ih]

/-- Effect of the per-bit `set_bit` sweep over all lanes. -/
theorem foldl_setSer (n : Nat) (gf : Nat → Bool) :
    ∀ st : BankSt,
      ((List.range n).map (fun l => SipoEv.setSer l (gf l))).foldl applyEv st
        = { st with sers := fun j => if j < n then gf j else st.sers j } := by
  induction n with
  | zero =>
    intro st
    simp only [List.range_zero, List.map_nil, List.foldl_nil]
    cases st with
    | mk s c o => simp
  | succ k ih =>
    intro st
    rw [List.range_succ, List.map_append, List.foldl_append, ih]
    simp only [List.map_cons, List.map_nil, List.foldl_cons, List.foldl_nil, applyEv]
    congr 1
    funext j
    by_cases hj : j = k
    · subst hj; simp
    · by_cases hjk : j < k
      · simp [hj, hjk, Nat.lt_succ_of_lt hjk]
      · have : ¬ j < k + 1 := by omega
        simp [hj, hjk, this]

/-- Running the shift loop: lane `l < LANES` ends with its own bit stream
shifted into its chain; outputs and lanes ≥ `LANES` chains' lengths aside,
outputs are untouched. -/
theorem bankShift_foldl (LANES : Nat) (bitf : Nat → Nat → Bool) (idxs : List Nat) :
    ∀ st : BankSt,
      (∀ l, l < LANES →
        ((idxs.flatMap (fun bitIdx =>
            ((List.range LANES).map (fun laneIdx => SipoEv.setSer laneIdx (bitf laneIdx bitIdx)))
              ++ [SipoEv.tick])).foldl applyEv st).chains l
          = idxs.foldl (fun c bitIdx => tickChain (bitf l bitIdx) c) (st.chains l))
      ∧ ((idxs.flatMap (fun bitIdx =>
            ((List.range LANES).map (fun laneIdx => SipoEv.setSer laneIdx (bitf laneIdx bitIdx)))
              ++ [SipoEv.tick])).foldl applyEv st).outs = st.outs := by
  induction idxs with
  | nil => intro st; simp
  | cons a as ih =>
    intro st
    rw [List.flatMap_cons, List.foldl_append, List.foldl_append]
    rw [foldl_setSer LANES (fun l => bitf l a) st]
    simp only [List.foldl_cons, List.foldl_nil]
    set st1 : BankSt := applyEv { st with sers := fun j => if j < LANES then bitf j a else st.sers j } SipoEv.tick with hst1
    have hch : ∀ l, l < LANES → st1.chains l = tickChain (bitf l a) (st.chains l) := by
      intro l hl
      rw [hst1]
      simp [applyEv, hl]
    have hout : st1.outs = st.outs := by rw [hst1]; simp [applyEv]
    refine ⟨?_, ?_⟩
    · intro l hl
      rw [(ih st1).1 l hl, hch l hl]
    · rw [(ih st1).2, hout]

theorem getD_of_lt {α : Type} (l : List α) (n : Nat) (d : α) (h : n < l.length) :
    l.getD n d = l[n] := by
  simp [List.getD_eq_getElem?_getD, List.getElem?_eq_getElem h]

/-- Decoding chip `k` of a chain that holds the reversed serial stream of a
byte frame recovers byte `N-1-k` (so the farthest chip shows the first
byte of the frame). -/
theorem chipByte_reverse_stream (frames : List (List Nat)) (l N k : Nat)
    (hk : k < N) (hlen : (frames.getD l []).length = N)
    (hby : ∀ b ∈ frames.getD l [], b < 256) :
    chipByte (((List.range (8 * N)).map (laneBit frames l)).reverse) k
      = (frames.getD l []).getD (N - 1 - k) 0 := by
  set fr : List Nat := frames.getD l [] with hfr
  have hidx : N - 1 - k < fr.length := by rw [hlen]; omega
  have hbyte : fr.getD (N - 1 - k) 0 = fr[N - 1 - k] := getD_of_lt fr _ 0 hidx
  have hb256 : fr[N - 1 - k] < 256 := hby _ (List.getElem_mem hidx)
  rw [hbyte]
  apply busVal_eq_of_testBit
  · intro t ht
    have hpos : 8 * k + t < 8 * N := by omega
    have hlen2 : 8 * k + t < (((List.range (8 * N)).map (laneBit frames l)).reverse).length := by
      simp
      omega
    rw [getD_of_lt _ _ false hlen2, List.getElem_reverse]
    simp only [List.getElem_map, List.getElem_range, List.length_map, List.length_range]
    have harith : 8 * N - 1 - (8 * k + t) = 8 * (N - 1 - k) + (7 - t) := by omega
    rw [harith]
    unfold laneBit
    have hdiv : (8 * (N - 1 - k) + (7 - t)) / 8 = N - 1 - k := by omega
    have hmod : (8 * (N - 1 - k) + (7 - t)) % 8 = 7 - t := by omega
    rw [hdiv, hmod]
    have h7t : 7 - (7 - t) = t := by omega
    rw [h7t, ← hfr, getD_of_lt fr _ 0 hidx]
    exact rsBit_eq_testBit (by omega)
  · exact hb256

/-- `ParallelBank::write_exact` (with a configured latch): every lane
`l < LANES` latches the reversed serial stream of its frame onto its
parallel outputs. -/
theorem bankWrite_outs (LANES N : Nat) (g : ControlGroup) (frames : List (List Nat))
    (st : BankSt) (hg : g.latch = some ()) (l : Nat) (hl : l < LANES)
    (hchain : (st.chains l).length = 8 * N) :
    ((bankWriteTrace LANES N g frames).foldl applyEv st).outs l
      = ((List.range (8 * N)).map (laneBit frames l)).reverse := by
  unfold bankWriteTrace
  rw [List.foldl_append]
  unfold latchAll
  rw [hg]
  simp only [List.foldl_cons, List.foldl_nil]
  have hshift := bankShift_foldl LANES (laneBit frames) (List.range (8 * N)) st
  unfold bankShiftTrace
  simp only [applyEv]
  rw [hshift.1 l hl]
  have hfold : (List.range (8 * N)).foldl
      (fun c bitIdx => tickChain (laneBit frames l bitIdx) c) (st.chains l)
      = ((List.range (8 * N)).map (laneBit frames l)).foldl
          (fun ch b => tickChain b ch) (st.chains l) := by
    rw [List.foldl_map]
  rw [hfold, foldl_tickChain _ (st.chains l) (by simp [hchain])]
  rw [hchain]
  simp

/-- The shift trace issues exactly one shared SRCLK tick per bit position:
`8*N` ticks in all, and `write_exact` adds exactly one latch pulse. -/
theorem bankTrace_counts (LANES N : Nat) (g : ControlGroup) (frames : List (List Nat))
    (hg : g.latch = some ()) :
    (bankWriteTrace LANES N g frames).count SipoEv.tick = 8 * N
      ∧ (bankWriteTrace LANES N g frames).count SipoEv.latchPulse = 1 := by
  have hblock : ∀ (ev : SipoEv) (idxs : List Nat),
      (∀ l b, ev ≠ SipoEv.setSer l b) →
      (idxs.flatMap (fun bitIdx =>
        ((List.range LANES).map (fun laneIdx =>
          SipoEv.setSer laneIdx (laneBit frames laneIdx bitIdx))) ++ [SipoEv.tick])).count ev
        = if ev = SipoEv.tick then idxs.length else 0 := by
    intro ev idxs hev
    induction idxs with
    | nil => simp
    | cons a as ih =>
      rw [List.flatMap_cons, List.count_append, List.count_append, ih]
      have hsets : ((List.range LANES).map (fun laneIdx =>
          SipoEv.setSer laneIdx (laneBit frames laneIdx a))).count ev = 0 := by
        rw [List.count_eq_zero]
        intro hmem
        rcases List.mem_map.mp hmem with ⟨x, _, hx⟩
        exact hev x (laneBit frames x a) hx.symm
      rw [hsets]
      by_cases hev2 : ev = SipoEv.tick
      · subst hev2
        simp [List.count_singleton]
        omega
      · simp only [hev2, if_false]
        rw [List.count_singleton]
        have : (SipoEv.tick == ev) = false := by
          cases ev <;> simp_all
        simp [this]
  unfold bankWriteTrace bankShiftTrace latchAll
  rw [hg]
  constructor
  · rw [List.count_append, hblock SipoEv.tick _ (by intro l b h; cases h)]
    simp [List.count_singleton]
  · rw [List.count_append, hblock SipoEv.latchPulse _ (by intro l b h; cases h)]
    simp [List.count_singleton]

/-- `SipoSingle::shift_exact` emits the same trace as a one-lane bank. -/
theorem singleShiftTrace_eq_bank (N : Nat) (frame : List Nat) :
    singleShiftTrace N frame = bankShiftTrace 1 N [frame] := by
  unfold singleShiftTrace bankShiftTrace
  apply List.flatMap_congr
  intro bit _
  have h1 : List.range 1 = [0] := rfl
  simp [laneBit, h1]

/-! ## `display/backend/utils.rs`: `DoubleBuffer`

The two `UnsafeCell` slots and the `AtomicU8` selector.  The selector is a
plain `Nat` (the `u8`); indexing `bufs[idx]` with `idx ≥ 2` would be an
array-bounds panic, hence `Option`. -/

abbrev Frame := Nat → Nat → Nat

structure DoubleFb where
  buf0 : Frame
  buf1 : Frame
  activeIdx : Nat

/-- `DoubleBuffer::new(init)`: both slots are clones of `init`, selector 0. -/
def dbNew (init : Frame) : DoubleFb := ⟨init, init, 0⟩

/-- `self.bufs[i]` (a 2-element array): out-of-range index is a panic. -/
def getBuf (db : DoubleFb) (i : Nat) : Option Frame :=
  if i = 0 then some db.buf0 else if i = 1 then some db.buf1 else none

def setBuf (db : DoubleFb) (i : Nat) (f : Frame) : Option DoubleFb :=
  if i = 0 then some { db with buf0 := f }
  else if i = 1 then some { db with buf1 := f }
  else none

/-- `DoubleBuffer::active_index` (atomic acquire load). -/
def activeIndex (db : DoubleFb) : Nat := db.activeIdx

/-- `DoubleBuffer::inactive_index`: `1 ^ active_index()`. -/
def inactiveIndex (db : DoubleFb) : Nat := 1 ^^^ activeIndex db

/-- `DoubleBuffer::with_active(f)`: immutable access to the active buffer. -/
def withActive {α : Type} (db : DoubleFb) (f : Frame → α) : Option α :=
  (getBuf db (activeIndex db)).map f

/-- `DoubleBuffer::with_inactive(f)`: mutate the inactive buffer (the
closure itself may panic, e.g. on an out-of-bounds framebuffer index). -/
def withInactive (db : DoubleFb) (f : Frame → Option Frame) : Option DoubleFb :=
  (getBuf db (inactiveIndex db)).bind fun fr =>
    (f fr).bind fun fr2 => setBuf db (inactiveIndex db) fr2

/-- `DoubleBuffer::swap`: release-store `active_index() ^ 1`. -/
def dbSwap (db : DoubleFb) : DoubleFb :=
  { db with activeIdx := activeIndex db ^^^ 1 }

/-! ## `display/backend/bus_dac.rs`: bus-scan backend -/

def FB_WIDTH : Nat := 201
def FB_HEIGHT : Nat := 151

/-- `frame[i][j] = color` on the `[[u8; FB_WIDTH]; FB_HEIGHT]` framebuffer:
Rust's checked indexing panics when `i ≥ FB_HEIGHT` or `j ≥ FB_WIDTH`. -/
def fbSet (fr : Frame) (i j color : Nat) : Option Frame :=
  if i < FB_HEIGHT then
    if j < FB_WIDTH then
      some (fun r c => if r = i ∧ c = j then color else fr r c)
    else none
  else none

/-- `BwPixelWriter8h8v1ch4::write_pixel(i, j, color)`:
`dbf.with_inactive(|frame| frame[i][j] = color)` — pure framebuffer
mutation, no bus access. -/
def busWritePixel (db : DoubleFb) (i j color : Nat) : Option DoubleFb :=
  withInactive db fun fr => fbSet fr i j color

/-- `BwPixelWriter8h8v1ch4::present_frame`: `dbf.swap()`. -/
def presentFrame (db : DoubleFb) : DoubleFb := dbSwap db

/-- `BwPixelWriter8h8v1ch4::addr_range`:
`((0, FB_HEIGHT-1), (0, FB_WIDTH-1))`. -/
def busAddrRange : (Nat × Nat) × (Nat × Nat) := ((0, FB_HEIGHT - 1), (0, FB_WIDTH - 1))

/-- `BwPixelWriter8h8v1ch4::color_range`: `(0, 255)`. -/
def busColorRange : Nat × Nat := (0, 255)

/-- One iteration of `BwPixelWriter8h8v1ch4::scan_loop`, given the sampled
horizontal and vertical address-bus values `h`, `v` and the current data-bus
pin levels.  Returns the new data-bus pin levels and, when the addresses are
in range, the framebuffer value the loop read; out-of-range addresses drive
nothing.  `none` is a panic (corrupted selector). -/
def scanIter (db : DoubleFb) (h v : Nat) (pins : Nat → Bool) :
    Option ((Nat → Bool) × Option Nat) :=
  if h < FB_WIDTH ∧ v < FB_HEIGHT then
    withActive db fun frame => (writeU8 4 (frame v h) pins, some (frame v h))
  else
    some (pins, none)

/-! ## `display/backend/sipo.rs`: shift-register backend -/

/-- The control group built by `BwPixelWriter8h8v1ch8::from_resources`:
RCLK and SRCLR are both wired. -/
def sipoCtrl : ControlGroup := { latch := some (), clear := some () }

/-- `BwPixelWriter8h8v1ch8::write_pixel(i, j, color)`:
`p_sipo_bank.write_exact([[color], [i], [j]])` on the 3-lane, 1-byte bank
(lane 0 = data, lane 1 = i/V address, lane 2 = j/H address). -/
def sipoWritePixel (st : BankSt) (i j color : Nat) : BankSt :=
  (bankWriteTrace 3 1 sipoCtrl [[color], [i], [j]]).foldl applyEv st

/-- `BwPixelWriter8h8v1ch8::addr_range`: `((0, 150), (0, 200))`. -/
def sipoAddrRange : (Nat × Nat) × (Nat × Nat) := ((0, 150), (0, 200))

/-- `BwPixelWriter8h8v1ch8::color_range`: `(0, 255)`. -/
def sipoColorRange : Nat × Nat := (0, 255)

/-! ### Reachable double-buffer states -/

/-- States a `DoubleBuffer` can reach through its public operations:
construction, `swap` (also `present_frame`), and producer mutation via
`with_inactive` (in particular `write_pixel`). -/
inductive Reachable : DoubleFb → Prop where
  | init (fr : Frame) : Reachable (dbNew fr)
  | swap {db : DoubleFb} : Reachable db → Reachable (dbSwap db)
  | winact {db db2 : DoubleFb} (f : Frame → Option Frame) :
      Reachable db → withInactive db f = some db2 → Reachable db2

theorem withInactive_preserves_idx {db db2 : DoubleFb} {f : Frame → Option Frame}
    (h : withInactive db f = some db2) : db2.activeIdx = db.activeIdx := by
  unfold withInactive at h
  rcases hget : getBuf db (inactiveIndex db) with _ | fr
  · rw [hget] at h; simp at h
  · rw [hget] at h
    rw [Option.some_bind] at h
    rcases hf : f fr with _ | fr2
    · rw [hf] at h; simp at h
    · rw [hf] at h
      rw [Option.some_bind] at h
      unfold setBuf at h
      by_cases h0 : inactiveIndex db = 0
      · rw [if_pos h0] at h
        cases h; rfl
      · rw [if_neg h0] at h
        by_cases h1 : inactiveIndex db = 1
        · rw [if_pos h1] at h
          cases h; rfl
        · rw [if_neg h1] at h; cases h

theorem reachable_idx_lt {db : DoubleFb} (h : Reachable db) : db.activeIdx < 2 := by
  induction h with
  | init fr => exact Nat.zero_lt_two
  | @swap db2 _ ih =>
    show db2.activeIdx ^^^ 1 < 2
    have h01 : db2.activeIdx = 0 ∨ db2.activeIdx = 1 := by omega
    rcases h01 with h | h <;> rw [h] <;> decide
  | winact f _ heq ih =>
    rw [withInactive_preserves_idx heq]
    exact ih

/-- Decoding all `N` chips of lane `l` after a bank `write_exact` recovers
the lane's frame in far-end-first order (chip 0 = nearest chip = last byte). -/
theorem bank_decode (LANES N : Nat) (g : ControlGroup) (frames : List (List Nat))
    (st : BankSt) (hg : g.latch = some ()) (l : Nat) (hl : l < LANES)
    (hchain : (st.chains l).length = 8 * N)
    (hflen : (frames.getD l []).length = N)
    (hby : ∀ b ∈ frames.getD l [], b < 256) :
    (List.range N).map
        (fun k => chipByte (((bankWriteTrace LANES N g frames).foldl applyEv st).outs l) k)
      = (frames.getD l []).reverse := by
  rw [bankWrite_outs LANES N g frames st hg l hl hchain]
  apply List.ext_getElem
  · simp only [List.length_map, List.length_range, List.length_reverse]
    exact hflen.symm
  · intro k hk1 hk2
    have hkN : k < N := by simpa using hk1
    simp only [List.getElem_map, List.getElem_range]
    rw [chipByte_reverse_stream frames l N k hkN hflen hby]
    rw [List.getElem_reverse]
    rw [← getD_of_lt _ _ 0 (by omega)]
    congr 1
    omega

/-! ## Claim theorems -/

/-- Concrete fixtures for witnesses and counterexamples. -/
def pinsLow : Nat → Bool := fun _ => false

def pinsHigh : Nat → Bool := fun _ => true

def zeroFrame : Frame := fun _ _ => 0

def dbZero : DoubleFb := dbNew zeroFrame

/-- A bank whose chains and output registers are one byte (8 stages) long. -/
def bank8 : BankSt :=
  ⟨fun _ => false, fun _ => List.replicate 8 false, fun _ => List.replicate 8 false⟩

/-- A bank whose chains and output registers are two bytes (16 stages) long. -/
def bank16 : BankSt :=
  ⟨fun _ => false, fun _ => List.replicate 16 false, fun _ => List.replicate 16 false⟩

/-- C4: For every `N`-byte frame, `SipoSingle::shift_exact` emits exactly
one bit per shift-clock tick (`8*N` ticks in all), most-significant-bit
first within each byte and far-end byte first across the frame: after
`write_exact` (shift + latch) the chips of the chain, read nearest-first,
show the frame reversed — so the farthest chip holds `frame[0]` and the
nearest holds `frame[N-1]`. -/
theorem c4_shift_exact_order (N : Nat) (frame : List Nat) (g : ControlGroup)
    (st : BankSt) (hlen : frame.length = N) (hby : ∀ b ∈ frame, b < 256)
    (hchain : (st.chains 0).length = 8 * N) (hg : g.latch = some ()) :
    (List.range N).map
        (fun k => chipByte (((singleWriteTrace N g frame).foldl applyEv st).outs 0) k)
      = frame.reverse
    ∧ (singleWriteTrace N g frame).count SipoEv.tick = 8 * N := by
  have htr : singleWriteTrace N g frame = bankWriteTrace 1 N g [frame] := by
    unfold singleWriteTrace bankWriteTrace
    rw [singleShiftTrace_eq_bank]
  constructor
  · rw [htr]
    have := bank_decode 1 N g [frame] st hg 0 Nat.one_pos hchain
      (by simpa using hlen) (by simpa using hby)
    simpa using this
  · rw [htr]
    exact (bankTrace_counts 1 N g [frame] hg).1

/-- C4 witness: `shift_exact([0xA5, 0x3C])` + `latch()` on an `N = 2`
chain leaves the far chip (index 1) holding `0xA5 = 165` and the near chip
(index 0) holding `0x3C = 60`, after exactly 16 ticks. -/
theorem c4_shift_exact_order_witness :
    (List.range 2).map
        (fun k => chipByte (((singleWriteTrace 2 sipoCtrl [165, 60]).foldl applyEv bank16).outs 0) k)
      = [60, 165]
    ∧ (singleWriteTrace 2 sipoCtrl [165, 60]).count SipoEv.tick = 16 := by
  have h := c4_shift_exact_order 2 [165, 60] sipoCtrl bank16 rfl
    (by intro b hb; simp at hb; rcases hb with h | h <;> omega)
    (by simp [bank16]) rfl
  exact ⟨h.1.trans (by decide), h.2⟩

/-- C5: For every `LANES`-array of `N`-byte frames,
`ParallelBank::shift_exact` walks bit positions `0 .. 8*N-1`, driving bit
`i` of every lane before the single shared clock tick (`8*N` ticks total,
shared by all lanes, so the lanes stay in lockstep), and `write_exact`
issues exactly one latch pulse committing all lanes together; afterwards
every lane `l` shows its own frame on its chips (nearest-first reversed). -/
theorem c5_bank_lockstep (LANES N : Nat) (frames : List (List Nat)) (g : ControlGroup)
    (st : BankSt) (hL : frames.length = LANES)
    (hlen : ∀ fr ∈ frames, fr.length = N)
    (hby : ∀ fr ∈ frames, ∀ b ∈ fr, b < 256)
    (hchain : ∀ l, l < LANES → (st.chains l).length = 8 * N)
    (hg : g.latch = some ()) :
    (∀ l, l < LANES →
      (List.range N).map
          (fun k => chipByte (((bankWriteTrace LANES N g frames).foldl applyEv st).outs l) k)
        = (frames.getD l []).reverse)
    ∧ (bankWriteTrace LANES N g frames).count SipoEv.tick = 8 * N
    ∧ (bankWriteTrace LANES N g frames).count SipoEv.latchPulse = 1 := by
  refine ⟨?_, (bankTrace_counts LANES N g frames hg).1, (bankTrace_counts LANES N g frames hg).2⟩
  intro l hl
  have hmem : frames.getD l [] ∈ frames := by
    rw [getD_of_lt frames l [] (by omega)]
    exact List.getElem_mem (by omega)
  exact bank_decode LANES N g frames st hg l hl (hchain l hl)
    (hlen _ hmem) (hby _ hmem)

/-- C5 witness: a `(LANES = 3, N = 1)` bank shifting
`[[0xFF], [0x00], [0x0F]]` followed by one latch yields lane outputs
`0xFF, 0x00, 0x0F` simultaneously, with 8 shared ticks and 1 latch pulse. -/
theorem c5_bank_lockstep_witness :
    ((List.range 1).map
        (fun k => chipByte (((bankWriteTrace 3 1 sipoCtrl [[255], [0], [15]]).foldl applyEv bank8).outs 0) k)
      = [255]
    ∧ (List.range 1).map
        (fun k => chipByte (((bankWriteTrace 3 1 sipoCtrl [[255], [0], [15]]).foldl applyEv bank8).outs 1) k)
      = [0]
    ∧ (List.range 1).map
        (fun k => chipByte (((bankWriteTrace 3 1 sipoCtrl [[255], [0], [15]]).foldl applyEv bank8).outs 2) k)
      = [15])
    ∧ (bankWriteTrace 3 1 sipoCtrl [[255], [0], [15]]).count SipoEv.tick = 8
    ∧ (bankWriteTrace 3 1 sipoCtrl [[255], [0], [15]]).count SipoEv.latchPulse = 1 := by
  have h := c5_bank_lockstep 3 1 [[255], [0], [15]] sipoCtrl bank8 rfl
    (by intro fr hfr; simp at hfr; rcases hfr with h | h | h <;> simp [h])
    (by intro fr hfr b hb; simp at hfr; rcases hfr with h | h | h <;> subst h <;> simp at hb <;> omega)
    (by intro l _; simp [bank8]) rfl
  refine ⟨⟨?_, ?_, ?_⟩, h.2.1, h.2.2⟩
  · exact (h.1 0 (by omega)).trans (by decide)
  · exact (h.1 1 (by omega)).trans (by decide)
  · exact (h.1 2 (by omega)).trans (by decide)

/-- C9: When a `ControlGroup` owns no latch line, `latch_all()` is a
non-fatal no-op carrying only a diagnostic: its trace is just the warning
event, which leaves the whole bank state — in particular every output
line — unchanged; `clear_all()` follows the same policy when no clear line
is configured. -/
theorem c9_latch_clear_noop (g g2 : ControlGroup)
    (hl : g.latch = none) (hc : g2.clear = none) :
    latchAll g = [SipoEv.warnNoLatch]
    ∧ (∀ st : BankSt, (latchAll g).foldl applyEv st = st)
    ∧ clearAll g2 = [SipoEv.warnNoClear]
    ∧ (∀ st : BankSt, (clearAll g2).foldl applyEv st = st) := by
  have h1 : latchAll g = [SipoEv.warnNoLatch] := by unfold latchAll; rw [hl]
  have h2 : clearAll g2 = [SipoEv.warnNoClear] := by unfold clearAll; rw [hc]
  refine ⟨h1, ?_, h2, ?_⟩
  · intro st; rw [h1]; rfl
  · intro st; rw [h2]; rfl

/-- C9 witness at the concrete fully-unwired group. -/
theorem c9_latch_clear_noop_witness :
    latchAll ⟨none, none⟩ = [SipoEv.warnNoLatch]
    ∧ (latchAll ⟨none, none⟩).foldl applyEv bank8 = bank8
    ∧ clearAll ⟨none, none⟩ = [SipoEv.warnNoClear]
    ∧ (clearAll ⟨none, none⟩).foldl applyEv bank8 = bank8 := by
  have h := c9_latch_clear_noop ⟨none, none⟩ ⟨none, none⟩ rfl rfl
  exact ⟨h.1, h.2.1 bank8, h.2.2.1, h.2.2.2 bank8⟩

/-- C3 (code evidence): The 8- and 16-bit readers reject oversized bus
widths (`read_u8` with `N = 9` and `read_u16` with `N = 17` panic) while
the corresponding writers do **not**: `write_u8` with `N = 9` runs to
completion and, in a release build, re-drives pin 8 from bit 0 of the value
(masked shift), and `write_u16` with `N = 17` re-drives pin 16 from bit 0.
The 32-bit accessors never reject: with `N = 40`, `read_u32` returns the
low 32 pins and `write_u32` leaves pin 35 untouched. -/
theorem c3_width_check_asymmetry :
    readU8 9 pinsHigh = none
    ∧ readU16 17 pinsHigh = none
    ∧ readU8 8 pinsHigh = some 255
    ∧ readU16 16 pinsHigh = some 65535
    ∧ writeU8 9 1 pinsLow 8 = true
    ∧ writeU8 9 1 pinsLow 0 = true
    ∧ writeU16 17 1 pinsLow 16 = true
    ∧ readU32 40 pinsHigh = some 4294967295
    ∧ writeU32 40 4294967295 pinsLow 35 = false := by
  refine ⟨rfl, rfl, by decide, by decide, by decide, by decide, by decide, by decide, by decide⟩

/-- C8: For every bus width `N ≤ 8` (resp. `M ≤ 16`) and every `N`-bit
(resp. `M`-bit) value, `write_u8` (resp. `write_u16`) followed by
`read_u8` (resp. `read_u16`) on the same lines returns the original value,
under the shared mapping pin 0 = least significant bit. -/
theorem c8_write_read_roundtrip (N v : Nat) (pins : Nat → Bool) (hN : N ≤ 8)
    (hv : v < 2 ^ N) (M w : Nat) (pins2 : Nat → Bool) (hM : M ≤ 16)
    (hw : w < 2 ^ M) :
    readU8 N (writeU8 N v pins) = some v
    ∧ readU16 M (writeU16 M w pins2) = some w := by
  constructor
  · unfold readU8
    rw [if_pos hN]
    congr 1
    apply busVal_eq_of_testBit _ hv
    intro i hi
    rw [writeU8_apply, if_pos hi]
    exact rsBit_eq_testBit (by omega)
  · unfold readU16
    rw [if_pos hM]
    congr 1
    apply busVal_eq_of_testBit _ hw
    intro i hi
    rw [writeU16_apply, if_pos hi]
    exact rsBit_eq_testBit (by omega)

/-- C8 witness: round trip of `11` on a 4-pin bus and `1234` on a
12-pin bus. -/
theorem c8_write_read_roundtrip_witness :
    readU8 4 (writeU8 4 11 pinsLow) = some 11
    ∧ readU16 12 (writeU16 12 1234 pinsLow) = some 1234 :=
  c8_write_read_roundtrip 4 11 pinsLow (by decide) (by decide)
    12 1234 pinsLow (by decide) (by decide)

/-- Full characterisation of `BwPixelWriter8h8v1ch4::write_pixel` on a
valid selector and in-range coordinates: it succeeds, leaves the selector
and the active buffer untouched, and updates exactly cell `(i, j)` of the
inactive buffer. -/
theorem busWritePixel_spec (db : DoubleFb) (i j c : Nat) (hdb : db.activeIdx < 2)
    (hi : i < FB_HEIGHT) (hj : j < FB_WIDTH) :
    ∃ db2 fr fr2, getBuf db (inactiveIndex db) = some fr
      ∧ busWritePixel db i j c = some db2
      ∧ db2.activeIdx = db.activeIdx
      ∧ getBuf db2 (activeIndex db) = getBuf db (activeIndex db)
      ∧ getBuf db2 (inactiveIndex db) = some fr2
      ∧ fr2 i j = c
      ∧ (∀ r cc, ¬(r = i ∧ cc = j) → fr2 r cc = fr r cc) := by
  have h01 : db.activeIdx = 0 ∨ db.activeIdx = 1 := by omega
  rcases h01 with h0 | h0
  · have hin : inactiveIndex db = 1 := by
      unfold inactiveIndex activeIndex; rw [h0]; rfl
    have hac : activeIndex db = 0 := by unfold activeIndex; rw [h0]
    refine ⟨{ db with buf1 := fun r cc => if r = i ∧ cc = j then c else db.buf1 r cc },
      db.buf1, fun r cc => if r = i ∧ cc = j then c else db.buf1 r cc,
      ?_, ?_, rfl, ?_, ?_, by simp, fun r cc hne => by simp [hne]⟩
    · rw [hin]; rfl
    · unfold busWritePixel withInactive
      rw [hin]
      unfold getBuf fbSet setBuf
      simp [hi, hj]
    · rw [hac]; rfl
    · rw [hin]; rfl
  · have hin : inactiveIndex db = 0 := by
      unfold inactiveIndex activeIndex; rw [h0]; rfl
    have hac : activeIndex db = 1 := by unfold activeIndex; rw [h0]
    refine ⟨{ db with buf0 := fun r cc => if r = i ∧ cc = j then c else db.buf0 r cc },
      db.buf0, fun r cc => if r = i ∧ cc = j then c else db.buf0 r cc,
      ?_, ?_, rfl, ?_, ?_, by simp, fun r cc hne => by simp [hne]⟩
    · rw [hin]; rfl
    · unfold busWritePixel withInactive
      rw [hin]
      unfold getBuf fbSet setBuf
      simp [hi, hj]
    · rw [hac]; rfl
    · rw [hin]; rfl

/-- C6: In every reachable `DoubleBuffer` state the active selector is 0
or 1, the active and inactive indices differ (so `with_active` and
`with_inactive` access distinct, existing buffers), `swap()` toggles the
selection exactly once (it selects the previously inactive buffer, and two
consecutive swaps restore the original selector), and producer mutation
through `with_inactive` never changes the selector. -/
theorem c6_selector_invariant (db : DoubleFb) (h : Reachable db) :
    (db.activeIdx = 0 ∨ db.activeIdx = 1)
    ∧ activeIndex db ≠ inactiveIndex db
    ∧ (getBuf db (activeIndex db)).isSome
    ∧ (getBuf db (inactiveIndex db)).isSome
    ∧ (dbSwap db).activeIdx = inactiveIndex db
    ∧ (dbSwap (dbSwap db)).activeIdx = db.activeIdx
    ∧ ∀ (f : Frame → Option Frame) (db2 : DoubleFb),
        withInactive db f = some db2 → db2.activeIdx = db.activeIdx := by
  have hlt := reachable_idx_lt h
  have h01 : db.activeIdx = 0 ∨ db.activeIdx = 1 := by omega
  refine ⟨h01, ?_, ?_, ?_, ?_, ?_, fun f db2 hw => withInactive_preserves_idx hw⟩
  all_goals rcases h01 with h0 | h0 <;>
    simp [activeIndex, inactiveIndex, getBuf, dbSwap, h0]

/-- C6 witness at a freshly constructed buffer. -/
theorem c6_selector_invariant_witness :
    (dbZero.activeIdx = 0 ∨ dbZero.activeIdx = 1)
    ∧ activeIndex dbZero ≠ inactiveIndex dbZero
    ∧ (getBuf dbZero (activeIndex dbZero)).isSome
    ∧ (getBuf dbZero (inactiveIndex dbZero)).isSome
    ∧ (dbSwap dbZero).activeIdx = inactiveIndex dbZero
    ∧ (dbSwap (dbSwap dbZero)).activeIdx = dbZero.activeIdx := by
  have h := c6_selector_invariant dbZero (Reachable.init zeroFrame)
  exact ⟨h.1, h.2.1, h.2.2.1, h.2.2.2.1, h.2.2.2.2.1, h.2.2.2.2.2.1⟩

/-- Case analysis of one scan-loop iteration (shared helper). -/
theorem scanIter_spec (db : DoubleFb) (h v : Nat) (pins : Nat → Bool)
    (hdb : db.activeIdx < 2) :
    (h < FB_WIDTH ∧ v < FB_HEIGHT →
      ∃ fr, getBuf db (activeIndex db) = some fr
        ∧ scanIter db h v pins = some (writeU8 4 (fr v h) pins, some (fr v h)))
    ∧ (¬(h < FB_WIDTH ∧ v < FB_HEIGHT) →
      scanIter db h v pins = some (pins, none)) := by
  constructor
  · intro hin
    have h01 : db.activeIdx = 0 ∨ db.activeIdx = 1 := by omega
    rcases h01 with h0 | h0
    · refine ⟨db.buf0, ?_, ?_⟩
      · unfold activeIndex; rw [h0]; rfl
      · unfold scanIter withActive activeIndex
        rw [if_pos hin, h0]
        rfl
    · refine ⟨db.buf1, ?_, ?_⟩
      · unfold activeIndex; rw [h0]; rfl
      · unfold scanIter withActive activeIndex
        rw [if_pos hin, h0]
        rfl
  · intro hout
    unfold scanIter
    rw [if_neg hout]

/-- C7: On every scan-loop iteration the sampled horizontal and vertical
addresses decide the action: if both are in range (`h < 201`, `v < 151`,
i.e. within `addr_range`), the cell of the active buffer is read and
immediately driven onto the 4-bit data bus via `write_u8`; otherwise the
iteration performs no drive at all — the data-bus pins keep their levels. -/
theorem c7_scan_iteration (db : DoubleFb) (h v : Nat) (pins : Nat → Bool)
    (hdb : db.activeIdx < 2) :
    (h < FB_WIDTH ∧ v < FB_HEIGHT →
      ∃ fr, getBuf db (activeIndex db) = some fr
        ∧ scanIter db h v pins = some (writeU8 4 (fr v h) pins, some (fr v h)))
    ∧ (¬(h < FB_WIDTH ∧ v < FB_HEIGHT) →
      scanIter db h v pins = some (pins, none)) :=
  scanIter_spec db h v pins hdb

/-- C7 witness: out-of-range `h = 250` drives nothing; in-range
`(h, v) = (5, 3)` on an all-zero active buffer reads 0 and drives it. -/
theorem c7_scan_iteration_witness :
    scanIter dbZero 250 3 pinsLow = some (pinsLow, none)
    ∧ scanIter dbZero 5 3 pinsLow = some (writeU8 4 0 pinsLow, some 0) := by
  have hout := (c7_scan_iteration dbZero 250 3 pinsLow (by decide)).2 (by decide)
  have hin := (c7_scan_iteration dbZero 5 3 pinsLow (by decide)).1 (by decide)
  refine ⟨hout, ?_⟩
  rcases hin with ⟨fr, hfr, heq⟩
  have hz : zeroFrame = fr := Option.some.inj hfr
  rw [heq, ← hz]
  rfl

/-- The 4-pin `write_u8` drives exactly the low nibble of the value. -/
theorem busVal_writeU8_four (c : Nat) (pins : Nat → Bool) :
    busVal (writeU8 4 c pins) 4 = c % 16 := by
  apply busVal_eq_of_testBit
  · intro i hi
    rw [writeU8_apply, if_pos hi, rsBit_eq_testBit (by omega)]
    have h16 : (16 : Nat) = 2 ^ 4 := rfl
    rw [h16, Nat.testBit_mod_two_pow]
    simp [hi]
  · exact Nat.mod_lt _ (by decide)

/-- C10: In the bus-scan backend the data bus is 4 pins wide: every
in-range scan iteration reads the stored cell value `c` and drives exactly
`c % 16` (its low 4 bits) onto the data pins, although `color_range()`
declares `(0, 255)` and `write_pixel` stores the full 8-bit value
unmodified in the framebuffer. -/
theorem c10_nibble_truncation (db : DoubleFb) (h v : Nat) (pins : Nat → Bool)
    (i j c : Nat) (hdb : db.activeIdx < 2) (hh : h < FB_WIDTH) (hv : v < FB_HEIGHT)
    (hi : i < FB_HEIGHT) (hj : j < FB_WIDTH) :
    (∃ fr, getBuf db (activeIndex db) = some fr
      ∧ (scanIter db h v pins).map (fun r => (busVal r.1 4, r.2))
          = some ((fr v h) % 16, some (fr v h)))
    ∧ busColorRange = (0, 255)
    ∧ (∃ db2 fr2, busWritePixel db i j c = some db2
        ∧ getBuf db2 (inactiveIndex db) = some fr2 ∧ fr2 i j = c) := by
  refine ⟨?_, rfl, ?_⟩
  · rcases (scanIter_spec db h v pins hdb).1 ⟨hh, hv⟩ with ⟨fr, hfr, heq⟩
    refine ⟨fr, hfr, ?_⟩
    rw [heq]
    simp [busVal_writeU8_four]
  · rcases busWritePixel_spec db i j c hdb hi hj with
      ⟨db2, fr, fr2, _, hw, _, _, hget2, hcell, _⟩
    exact ⟨db2, fr2, hw, hget2, hcell⟩

/-- C10 witness: a stored value of 200 is driven as `200 % 16 = 8`. -/
theorem c10_nibble_truncation_witness :
    busVal (writeU8 4 200 pinsLow) 4 = 8
    ∧ busColorRange = (0, 255)
    ∧ (∃ db2 fr2, busWritePixel dbZero 5 3 200 = some db2
        ∧ getBuf db2 (inactiveIndex dbZero) = some fr2 ∧ fr2 5 3 = 200) := by
  have h := c10_nibble_truncation dbZero 5 3 pinsLow 5 3 200 (by decide) (by decide)
    (by decide) (by decide) (by decide)
  exact ⟨(busVal_writeU8_four 200 pinsLow).trans (by decide), h.2.1, h.2.2⟩

/-- C1 counterexample: The claim reads `write_pixel`'s first argument as
the horizontal address `h` and its second as `v`, and expects
`write_pixel(5, 3, 200)` + `swap()` to make 200 observable at scan address
`(h = 5, v = 3)`.  On the code this is false: starting from an all-zero
double buffer, after `write_pixel(5, 3, 200)` and `swap()` the scan loop
sampling `h = 5, v = 3` reads `frame[3][5] = 0`, not 200 — the code's
first parameter is the row (vertical) index. -/
theorem c1_counterexample :
    ((busWritePixel dbZero 5 3 200).bind
        fun d => (scanIter (dbSwap d) 5 3 pinsLow).map Prod.snd) = some (some 0)
    ∧ ((busWritePixel dbZero 5 3 200).bind
        fun d => (scanIter (dbSwap d) 5 3 pinsLow).map Prod.snd) ≠ some (some 200) := by
  constructor
  · rfl
  · intro hcontra
    have h0 : ((busWritePixel dbZero 5 3 200).bind
        fun d => (scanIter (dbSwap d) 5 3 pinsLow).map Prod.snd) = some (some 0) := rfl
    rw [h0] at hcontra
    simp at hcontra

/-- C1 (amended): `write_pixel(i, j, color)` — first argument the row
(vertical) index, second the column (horizontal) index — only mutates the
inactive slot of the shared `DoubleBuffer` at `(row i, col j)` and performs
no hardware transaction at call time: the selector and the active buffer
are untouched and every scan iteration behaves exactly as before the call.
After `swap()` the written value is observable by the scan loop at bus
address `h = j, v = i` — only after the swap, never before. -/
theorem c1_write_pixel_deferred (db : DoubleFb) (i j c : Nat) (pins : Nat → Bool)
    (hdb : db.activeIdx < 2) (hi : i < FB_HEIGHT) (hj : j < FB_WIDTH) :
    ∃ db2, busWritePixel db i j c = some db2
      ∧ db2.activeIdx = db.activeIdx
      ∧ (∀ h v p, scanIter db2 h v p = scanIter db h v p)
      ∧ (scanIter (dbSwap db2) j i pins).map Prod.snd = some (some c)
      ∧ (∃ fr fr2, getBuf db (inactiveIndex db) = some fr
          ∧ getBuf db2 (inactiveIndex db) = some fr2
          ∧ fr2 i j = c
          ∧ ∀ r cc, ¬(r = i ∧ cc = j) → fr2 r cc = fr r cc) := by
  rcases busWritePixel_spec db i j c hdb hi hj with
    ⟨db2, fr, fr2, hfr, hw, hidx, hact, hinact, hcell, hrest⟩
  refine ⟨db2, hw, hidx, ?_, ?_, fr, fr2, hfr, hinact, hcell, hrest⟩
  · intro h v p
    unfold scanIter withActive activeIndex
    rw [hidx]
    unfold activeIndex at hact
    rw [hact]
  · have hswapidx : activeIndex (dbSwap db2) = inactiveIndex db := by
      unfold dbSwap activeIndex inactiveIndex activeIndex
      simp only
      rw [hidx, Nat.xor_comm]
    have hgetswap : getBuf (dbSwap db2) (activeIndex (dbSwap db2))
        = getBuf db2 (inactiveIndex db) := by
      rw [hswapidx]; rfl
    unfold scanIter
    rw [if_pos ⟨hj, hi⟩]
    unfold withActive
    rw [hgetswap, hinact]
    simp [hcell]

/-- C1 witness: the amended claim at `write_pixel(5, 3, 200)` on an
all-zero buffer — observable at `h = 3, v = 5` after the swap. -/
theorem c1_write_pixel_deferred_witness :
    ∃ db2, busWritePixel dbZero 5 3 200 = some db2
      ∧ db2.activeIdx = dbZero.activeIdx
      ∧ (∀ h v p, scanIter db2 h v p = scanIter dbZero h v p)
      ∧ (scanIter (dbSwap db2) 3 5 pinsLow).map Prod.snd = some (some 200)
      ∧ (∃ fr fr2, getBuf dbZero (inactiveIndex dbZero) = some fr
          ∧ getBuf db2 (inactiveIndex dbZero) = some fr2
          ∧ fr2 5 3 = 200
          ∧ ∀ r cc, ¬(r = 5 ∧ cc = 3) → fr2 r cc = fr r cc) :=
  c1_write_pixel_deferred dbZero 5 3 200 pinsLow (by decide) (by decide) (by decide)

/-- C2 counterexample: The code applies no declared, consistent
out-of-range policy.  Row address 200 is outside the declared
`addr_range() = ((0, 150), (0, 200))` of the shift-register backend, yet
`write_pixel(200, 0, 0)` there performs the full hardware transaction and
latches the raw row address 200 onto the i-address lane — neither rejected
nor clamped — while the bus-scan backend's `write_pixel(200, 0, 0)` dies
with an out-of-bounds index panic instead of following any declared
policy. -/
theorem c2_counterexample :
    sipoAddrRange = ((0, 150), (0, 200))
    ∧ 150 < 200
    ∧ chipByte ((sipoWritePixel bank8 200 0 0).outs 1) 0 = 200
    ∧ busWritePixel dbZero 200 0 0 = none := by
  refine ⟨rfl, by decide, by decide, rfl⟩

/-- C2 (amended): Neither backend checks coordinates or colors against
`addr_range`/`color_range`.  The bus-scan backend's `write_pixel` relies on
Rust's checked indexing: it succeeds exactly when `i < 151 ∧ j < 201` —
so under in-range preconditions the out-of-bounds error branch is
unreachable, and out-of-range coordinates abort by panic rather than
silently corrupting memory.  The shift-register backend performs the full
bus transaction for any `u8` arguments, transmitting color, row and column
raw (no reject, no clamp). -/
theorem c2_no_range_policy (db : DoubleFb) (hdb : db.activeIdx < 2) (i j c : Nat)
    (st : BankSt) (hch : ∀ l, l < 3 → (st.chains l).length = 8)
    (hi : i < 256) (hj : j < 256) (hc : c < 256) :
    ((busWritePixel db i j c).isSome ↔ (i < FB_HEIGHT ∧ j < FB_WIDTH))
    ∧ chipByte ((sipoWritePixel st i j c).outs 0) 0 = c
    ∧ chipByte ((sipoWritePixel st i j c).outs 1) 0 = i
    ∧ chipByte ((sipoWritePixel st i j c).outs 2) 0 = j := by
  have hdecode : ∀ l x, l < 3 → [[c], [i], [j]].getD l [] = [x] → x < 256 →
      chipByte ((sipoWritePixel st i j c).outs l) 0 = x := by
    intro l x hl hget hx
    have h := bank_decode 3 1 sipoCtrl [[c], [i], [j]] st rfl l hl
      (by rw [hch l hl])
      (by rw [hget]; rfl)
      (by rw [hget]; intro b hb; simp at hb; omega)
    rw [hget] at h
    have r1 : List.range 1 = [0] := rfl
    rw [r1] at h
    simp at h
    exact h
  refine ⟨?_, hdecode 0 c (by omega) rfl hc, hdecode 1 i (by omega) rfl hi,
    hdecode 2 j (by omega) rfl hj⟩
  constructor
  · intro hsome
    by_contra hno
    have hnone : busWritePixel db i j c = none := by
      unfold busWritePixel withInactive
      have h01 : db.activeIdx = 0 ∨ db.activeIdx = 1 := by omega
      have hfb : ∀ fr : Frame, fbSet fr i j c = none := by
        intro fr
        unfold fbSet
        by_cases h1 : i < FB_HEIGHT
        · rw [if_pos h1, if_neg (by tauto)]
        · rw [if_neg h1]
      have hin2 : ∃ fr, getBuf db (inactiveIndex db) = some fr := by
        rcases h01 with h0 | h0
        · exact ⟨db.buf1, by unfold inactiveIndex activeIndex; rw [h0]; rfl⟩
        · exact ⟨db.buf0, by unfold inactiveIndex activeIndex; rw [h0]; rfl⟩
      rcases hin2 with ⟨fr, hin⟩
      rw [hin, Option.some_bind]
      show (fbSet fr i j c).bind _ = none
      rw [hfb]
      rfl
    rw [hnone] at hsome
    simp at hsome
  · intro hin
    rcases busWritePixel_spec db i j c hdb hin.1 hin.2 with
      ⟨db2, _, _, _, hw, _⟩
    rw [hw]
    rfl

/-- C2 witness: the amended claim at in-range `write_pixel(5, 3, 200)`
on both backends. -/
theorem c2_no_range_policy_witness :
    ((busWritePixel dbZero 5 3 200).isSome ↔ (5 < FB_HEIGHT ∧ 3 < FB_WIDTH))
    ∧ chipByte ((sipoWritePixel bank8 5 3 200).outs 0) 0 = 200
    ∧ chipByte ((sipoWritePixel bank8 5 3 200).outs 1) 0 = 5
    ∧ chipByte ((sipoWritePixel bank8 5 3 200).outs 2) 0 = 3 :=
  c2_no_range_policy dbZero (by decide) 5 3 200 bank8
    (by intro l _; rfl) (by decide) (by decide) (by decide)

end EspDisp
